import Mathlib

/-!
Verification development for the QMoi runner-manifest generator
(`deploy/qcity/generate_runner_manifest.py`) and the two sanitized
documentation-accessor stubs (`sanitized/qmoi_avatars.py`,
`sanitized/qmoi_doit.py`).

The Python source is shallowly embedded: files are records of a name and an
optional content (`none` models a read failure), the static regex table is
embedded as a small pattern AST whose search function models `re.search`
with `re.IGNORECASE` for the exact shapes of regex occurring in the table
(literal alternations and one `a.*b` pattern, where `.` does not match a
newline, as in Python's default mode), and the capability set accumulated by
the scan loop is modelled as a duplicate-free list grown by membership
insert, sorted at the end by code-point order exactly as Python's
`sorted(set(...))`.
-/

/-- A scanned file as seen by `detect_capabilities`: its `p.name` and the
result of `p.read_text(...)`; `none` models the case in which reading raised
and the `except` clause skipped the file. -/
structure PyFile where
  name : String
  content : Option String
deriving DecidableEq

/-- Pattern AST covering the regexes in `CAPABILITY_MAP`: literals,
alternation, and the single `a.*b` form (`build.*platform`). -/
inductive Rx where
  | lit (s : String)
  | alt (r₁ r₂ : Rx)
  | dotStar (a b : String)
deriving DecidableEq

/-- Lowercase every character of a character list (models `re.IGNORECASE`
by ASCII case-folding both the pattern literal and the haystack; the
table's literals are all ASCII). -/
def lowerL (l : List Char) : List Char := l.map Char.toLower

/-- Does `needle` occur as a prefix of `hay`? -/
def matchesAt : List Char → List Char → Bool
  | [], _ => true
  | _ :: _, [] => false
  | c :: cs, d :: ds => c == d && matchesAt cs ds

/-- Does `needle` occur somewhere inside `hay`? -/
def containsL (needle : List Char) : List Char → Bool
  | [] => matchesAt needle []
  | d :: ds => matchesAt needle (d :: ds) || containsL needle ds

/-- Does `needle` occur in `hay` at a position reachable without first
crossing a newline?  Used for the `.*` segment of `build.*platform`, since
Python's `.` does not match `\n`. -/
def beforeNL (needle : List Char) : List Char → Bool
  | [] => matchesAt needle []
  | d :: ds => matchesAt needle (d :: ds) || (d != '\n' && beforeNL needle ds)

/-- Search for `a`, then arbitrary non-newline characters, then `b`
(the semantics of `re.search` for the pattern `a.*b`). -/
def dotStarSearch (a b : List Char) : List Char → Bool
  | [] => matchesAt a [] && beforeNL b []
  | d :: ds =>
      (matchesAt a (d :: ds) && beforeNL b ((d :: ds).drop a.length)) ||
      dotStarSearch a b ds

/-- Search a pattern in an already case-folded haystack. -/
def Rx.search : Rx → List Char → Bool
  | .lit s, hay => containsL (lowerL s.data) hay
  | .alt r₁ r₂, hay => r₁.search hay || r₂.search hay
  | .dotStar a b, hay => dotStarSearch (lowerL a.data) (lowerL b.data) hay

/-- Case-insensitive search of a pattern in a string, modelling
`pattern.search(hay)` for a pattern compiled with `re.I`. -/
def rx_searchCI (r : Rx) (hay : String) : Bool := r.search (lowerL hay.data)

/-- The static pattern table `CAPABILITY_MAP` of
`generate_runner_manifest.py`, lines 19-32, pattern by pattern. -/
def CAPABILITY_MAP : List (Rx × String) :=
  [ (.lit "build", "build"),
    (.alt (.dotStar "build" "platform") (.lit "BUILDAPPSFORALLPLATFORMS"), "build-all-platforms"),
    (.lit "qcity", "qcity"),
    (.alt (.lit "runner") (.alt (.lit "runners") (.lit "runnersengine")), "runner-engine"),
    (.alt (.lit "android") (.alt (.lit "apk") (.lit "play")), "android-build"),
    (.alt (.lit "ios") (.alt (.lit "ipa") (.lit "xcode")), "ios-build"),
    (.alt (.lit "mac") (.alt (.lit "dmg") (.lit "pkg")), "macos-build"),
    (.alt (.lit "windows") (.alt (.lit "nsis") (.lit "exe")), "windows-build"),
    (.alt (.lit "linux") (.alt (.lit "deb") (.lit "appimage")), "linux-build"),
    (.lit "electron", "electron-build"),
    (.alt (.lit "video") (.lit "media"), "media-processing"),
    (.alt (.lit "gpu") (.lit "cuda"), "gpu") ]

/-- Python's `text[:4000]`: the first 4000 characters (code points). -/
def pyTake4000 (t : String) : String := String.mk (t.data.take 4000)

/-- The haystack built for one file: `name + "\n" + text[:4000]`
(line 51 of the script). -/
def hayOf (name text : String) : String := name ++ "\n" ++ pyTake4000 text

/-- Python's `set.add`: insert unless already present (the set is modelled
as its duplicate-free list of elements in insertion order). -/
def pySetAdd (s : List String) (c : String) : List String :=
  if c ∈ s then s else s ++ [c]

/-- The inner loop of `detect_capabilities`: run every pattern of the table
over the haystack, adding the label of each match to the set. -/
def capsAddPatterns (hay : String) : List String → List (Rx × String) → List String
  | caps, [] => caps
  | caps, (r, c) :: rest =>
      capsAddPatterns hay (if rx_searchCI r hay then pySetAdd caps c else caps) rest

/-- One iteration of the outer loop of `detect_capabilities`: skip the file
if reading failed (`continue`), otherwise scan its haystack. -/
def capsAddFile (caps : List String) (f : PyFile) : List String :=
  match f.content with
  | none => caps
  | some text => capsAddPatterns (hayOf f.name text) caps CAPABILITY_MAP

/-- Code-point comparison of character lists, the order Python's `sorted`
uses on strings. -/
def charsLe : List Char → List Char → Bool
  | [], _ => true
  | _ :: _, [] => false
  | a :: as, b :: bs =>
      if a.val < b.val then true
      else if b.val < a.val then false
      else charsLe as bs

/-- Boolean string comparison agreeing with the string order (bridged below
by `strLeb_iff`). -/
def strLeb (a b : String) : Bool := charsLe a.data b.data

/-- Python's `sorted` on a list of strings: ascending code-point order. -/
def pySorted (l : List String) : List String :=
  List.insertionSort (fun a b => strLeb a b = true) l

/-- The function `detect_capabilities` (lines 42-55): accumulate the label
set over all files, then return it sorted. -/
def detect_capabilities (files : List PyFile) : List String :=
  pySorted (files.foldl capsAddFile [])

/-- A capability contributed by one successfully read file: some pattern of
the table matches the haystack built from the file's name and content. -/
def fileMatches (f : PyFile) (c : String) : Prop :=
  ∃ text, f.content = some text ∧
    ∃ pr ∈ CAPABILITY_MAP, rx_searchCI pr.1 (hayOf f.name text) = true ∧ pr.2 = c

/-- Haystack as worded by the specification for claim C1: the file's name
concatenated directly with the first 4000 characters of its content
(without the newline separator the code inserts). -/
def hayOf_specC1 (name text : String) : String := name ++ pyTake4000 text

/-- One outer-loop iteration of the detector, but over the specification's
haystack `hayOf_specC1`. -/
def capsAddFile_specC1 (caps : List String) (f : PyFile) : List String :=
  match f.content with
  | none => caps
  | some text => capsAddPatterns (hayOf_specC1 f.name text) caps CAPABILITY_MAP

/-- The capability detector as worded by the specification for claim C1:
identical to `detect_capabilities` except that the haystack omits the
newline separator. -/
def detect_capabilities_specC1 (files : List PyFile) : List String :=
  pySorted (files.foldl capsAddFile_specC1 [])

/-- Python's `str.strip()` (ASCII whitespace): drop leading and trailing
whitespace characters. -/
def py_strip (s : String) : String :=
  String.mk (((s.data.dropWhile Char.isWhitespace).reverse.dropWhile Char.isWhitespace).reverse)

/-- Worker for `py_split_comma`: `cur` is the current chunk, reversed. -/
def splitCommaGo : List Char → List Char → List String
  | cur, [] => [String.mk cur.reverse]
  | cur, c :: rest =>
      if c = ',' then String.mk cur.reverse :: splitCommaGo [] rest
      else splitCommaGo (c :: cur) rest

/-- Python's `s.split(',')`: chunks between commas, empty chunks kept
(so `"".split(',') = [""]` and `"a,,b".split(',') = ["a","","b"]`). -/
def py_split_comma (s : String) : List String := splitCommaGo [] s.data

/-- The tag parsing of `main` (line 84):
`[t.strip() for t in args.tags.split(',') if t.strip()]`. -/
def parse_tags (s : String) : List String :=
  (py_split_comma s).filterMap fun t =>
    if py_strip t = "" then none else some (py_strip t)

/-- Tag parsing as worded by the specification for claim C7: the
comma-separated entries kept verbatim, with empty and whitespace-only
entries discarded. -/
def parse_tags_specC7 (s : String) : List String :=
  (py_split_comma s).filter fun t => !t.data.all Char.isWhitespace

/-- Python's `args.runner_id or f"{socket.gethostname()}"` (line 83):
`None` and the empty string are falsy, so both fall back to the host
name. -/
def runner_id_or_host (arg : Option String) (host : String) : String :=
  match arg with
  | none => host
  | some s => if s = "" then host else s

/-- The manifest record built by `build_manifest` (lines 58-68); the host
name and the clock reading are environmental inputs and appear as
parameters. -/
structure Manifest where
  runner_id : String
  hostname : String
  capabilities : List String
  tags : List String
  generated_at : Nat
deriving DecidableEq

/-- The function `build_manifest`: `tags=None` defaults to `[]`, and
`caps or []` maps both `None` and the empty list to `[]`. -/
def build_manifest (runner_id host : String) (now : Nat)
    (tags : Option (List String)) (caps : Option (List String)) : Manifest :=
  { runner_id := runner_id
    hostname := host
    capabilities :=
      match caps with
      | none => []
      | some c => if c = [] then [] else c
    tags :=
      match tags with
      | none => []
      | some t => t
    generated_at := now }

/-- The command-line arguments of `main` after parsing: `--runner-id`
(absent modelled as `none`), `--tags`, `--apply`, and `--root` (already
resolved to an absolute path, as `Path(args.root).resolve()` is
environmental). -/
structure Args where
  runner_id : Option String
  tags : String
  apply : Bool
  root : String
deriving DecidableEq

/-- The manifest `main` builds (lines 79-86) from the parsed arguments, the
environment (host name, clock) and the scanned file list. -/
def main_manifest (a : Args) (host : String) (now : Nat) (files : List PyFile) : Manifest :=
  build_manifest (runner_id_or_host a.runner_id host) host now
    (some (parse_tags a.tags)) (some (detect_capabilities files))

/-- Escaping of one character inside a JSON string literal. Models the
stdlib `json.dumps` escaping for the characters that can appear here;
`\uXXXX` escapes for other control or non-ASCII characters are not
modelled (no claim depends on them). -/
def jsonEscapeChar (c : Char) : String :=
  if c = '\\' then "\\\\"
  else if c = '"' then "\\\""
  else if c = '\n' then "\\n"
  else if c = '\t' then "\\t"
  else if c = '\r' then "\\r"
  else String.mk [c]

/-- A JSON string literal. -/
def jsonQuote (s : String) : String :=
  "\"" ++ String.join (s.data.map jsonEscapeChar) ++ "\""

/-- A JSON array of strings as `json.dumps(..., indent=2)` renders it at
nesting depth one: `[]` when empty, otherwise one element per line. -/
def jsonStrArr (l : List String) : String :=
  match l with
  | [] => "[]"
  | _ => "[\n    " ++ String.intercalate ",\n    " (l.map jsonQuote) ++ "\n  ]"

/-- Models the stdlib call `json.dumps(manifest, indent=2)` for the
five-field manifest record, keys in insertion order. -/
def json_dumps (m : Manifest) : String :=
  "\x7b\n  \"runner_id\": " ++ jsonQuote m.runner_id ++
  ",\n  \"hostname\": " ++ jsonQuote m.hostname ++
  ",\n  \"capabilities\": " ++ jsonStrArr m.capabilities ++
  ",\n  \"tags\": " ++ jsonStrArr m.tags ++
  ",\n  \"generated_at\": " ++ toString m.generated_at ++ "\n\x7d"

/-- A single-quote character, as Python's `repr` uses around strings. -/
def pySq : String := String.mk [Char.ofNat 39]

/-- Python's `repr` of a capability label (labels contain no quotes). -/
def pyStrRepr (s : String) : String := pySq ++ s ++ pySq

/-- Python's `repr` of a list of strings. -/
def pyListRepr (l : List String) : String :=
  "[" ++ String.intercalate ", " (l.map pyStrRepr) ++ "]"

/-- The line `print('Discovered capabilities:', caps)` writes (line 88). -/
def discoveredLine (caps : List String) : String :=
  "Discovered capabilities: " ++ pyListRepr caps

/-- Observable actions of one `main` run: writing a line to standard
output, `mkdir(parents=True, exist_ok=True)`, and `write_text` (which
overwrites). -/
inductive Eff where
  | printOut (s : String)
  | mkdirAll (path : String)
  | writeFileAt (path : String) (content : String)
deriving DecidableEq

/-- The output directory `root / '.qmoi'`. -/
def qmoi_dir (root : String) : String := root ++ "/.qmoi"

/-- The output file `root / '.qmoi' / 'runner_manifest.json'`. -/
def manifest_path (root : String) : String := root ++ "/.qmoi/runner_manifest.json"

/-- The trace of effects `main` performs after parsing and scanning
(lines 88-96): the capability line is always printed; with `--apply` the
manifest is written under `.qmoi/` (after creating the directory) and a
confirmation is printed, otherwise the manifest JSON is printed. -/
def mainEffects (a : Args) (host : String) (now : Nat) (files : List PyFile) : List Eff :=
  let caps := detect_capabilities files
  let m := main_manifest a host now files
  Eff.printOut (discoveredLine caps) ::
    (if a.apply then
      [Eff.mkdirAll (qmoi_dir a.root),
       Eff.writeFileAt (manifest_path a.root) (json_dumps m),
       Eff.printOut ("Wrote manifest to " ++ manifest_path a.root)]
    else
      [Eff.printOut (json_dumps m)])

/-- A file-system state: file contents and the set of existing
directories. -/
structure FS where
  files : String → Option String
  dirs : String → Bool

/-- The effect of one action on the file system: printing changes nothing,
`mkdirAll` adds the directory, `writeFileAt` sets the file's content,
overwriting whatever was there. -/
def applyEff (fs : FS) : Eff → FS
  | .printOut _ => fs
  | .mkdirAll p => { fs with dirs := fun q => if q = p then true else fs.dirs q }
  | .writeFileAt p c => { fs with files := fun q => if q = p then some c else fs.files q }

/-- Run a trace of effects over a file-system state. -/
def runEffects (fs : FS) : List Eff → FS
  | [] => fs
  | e :: es => runEffects (applyEff fs e) es

/-- The lines a trace writes to standard output, in order. -/
def stdoutOf (effs : List Eff) : List String :=
  effs.filterMap fun e =>
    match e with
    | .printOut s => some s
    | _ => none

/-- The fixed documentation file both accessor stubs read, relative to the
package root (`Path(__file__).resolve().parent.parent` of the stubs). -/
def doctexts_path : String := "docs/converted/qmoi_doctexts.md"

namespace qmoi_avatars

/-- The function `get_notes` of `sanitized/qmoi_avatars.py` (lines 8-12):
the file system is modelled as a partial map from paths to text, so
`fs doctexts_path = some t` is `p.exists()` with `p.read_text()` returning
`t`, and `none` is a missing file. -/
def get_notes (fs : String → Option String) : String :=
  match fs doctexts_path with
  | some t => t
  | none => ""

end qmoi_avatars

namespace qmoi_doit

/-- The function `get_notes` of `sanitized/qmoi_doit.py` (lines 10-14),
identical to the avatars stub. -/
def get_notes (fs : String → Option String) : String :=
  match fs doctexts_path with
  | some t => t
  | none => ""

end qmoi_doit

example : strLeb "android-build" "build" = true := by decide
example : detect_capabilities [⟨"android-build.md", some ""⟩] = ["android-build", "build"] := by decide
example : detect_capabilities [⟨"x.md", some "mg"⟩] = [] := by decide
example : detect_capabilities [⟨"notes.md", none⟩] = [] := by decide

/-- The boolean comparator decides the lexicographic (code-point) order on
character lists. -/
theorem charsLe_iff : ∀ as bs : List Char, charsLe as bs = true ↔ ¬ List.Lex (· < ·) bs as := by
  intro as
  induction as with
  | nil =>
      intro bs
      apply iff_of_true
      · simp [charsLe]
      · exact List.Lex.not_nil_right _ _
  | cons a as ih =>
      intro bs
      cases bs with
      | nil =>
          apply iff_of_false
          · simp [charsLe]
          · intro h; exact h List.Lex.nil
      | cons b bs =>
          by_cases hab : a.val < b.val
          · apply iff_of_true
            · simp [charsLe, hab]
            · intro h
              cases h with
              | cons h' => exact absurd hab (UInt32.lt_irrefl _)
              | rel h' => exact absurd hab (UInt32.lt_asymm (Char.lt_iff_val_lt_val.mp h'))
          · by_cases hba : b.val < a.val
            · apply iff_of_false
              · simp [charsLe, hab, hba]
              · intro h
                exact h (List.Lex.rel (Char.lt_iff_val_lt_val.mpr hba))
            · have hEq : a = b := by
                apply Char.eq_of_val_eq
                apply UInt32.le_antisymm
                · exact UInt32.not_lt.mp hba
                · exact UInt32.not_lt.mp hab
              subst hEq
              have hred : charsLe (a :: as) (a :: bs) = charsLe as bs := by
                simp [charsLe, hab]
              rw [hred, ih bs]
              constructor
              · intro hnot h
                cases h with
                | cons h' => exact hnot h'
                | rel h' => exact absurd (Char.lt_iff_val_lt_val.mp h') hab
              · intro hnot h
                exact hnot (List.Lex.cons h)

/-- The boolean comparator decides the string order of the library
(ascending code-point order, as used by Python's `sorted`). -/
theorem strLeb_iff (a b : String) : strLeb a b = true ↔ a ≤ b := by
  rw [String.le_iff_toList_le, ← not_lt]
  exact charsLe_iff a.toList b.toList

/-- The output of `pySorted` is sorted ascending in the string order. -/
theorem pySorted_sorted (l : List String) : List.Sorted (· ≤ ·) (pySorted l) := by
  haveI : IsTotal String (fun a b => strLeb a b = true) := by
    constructor
    intro a b
    rw [strLeb_iff, strLeb_iff]
    exact le_total a b
  haveI : IsTrans String (fun a b => strLeb a b = true) := by
    constructor
    intro a b c hab hbc
    rw [strLeb_iff] at hab hbc ⊢
    exact le_trans hab hbc
  have h := List.sorted_insertionSort (fun a b => strLeb a b = true) l
  exact h.imp (fun hab => (strLeb_iff _ _).mp hab)

/-- Sorting permutes: `pySorted l` has exactly the elements of `l`. -/
theorem pySorted_perm (l : List String) : (pySorted l).Perm l :=
  List.perm_insertionSort _ l

/-- Membership in `pySetAdd`. -/
theorem mem_pySetAdd (x c : String) (s : List String) :
    x ∈ pySetAdd s c ↔ x ∈ s ∨ x = c := by
  by_cases h : c ∈ s
  · simp only [pySetAdd, if_pos h]
    constructor
    · exact Or.inl
    · rintro (hx | rfl)
      · exact hx
      · exact h
  · simp [pySetAdd, if_neg h]

/-- `pySetAdd` preserves the set invariant: no duplicates. -/
theorem nodup_pySetAdd (c : String) (s : List String) (h : s.Nodup) :
    (pySetAdd s c).Nodup := by
  by_cases hc : c ∈ s
  · simpa [pySetAdd, if_pos hc] using h
  · simp only [pySetAdd, if_neg hc]
    refine List.Nodup.append h (List.nodup_singleton c) ?_
    intro a ha hb
    rw [List.mem_singleton] at hb
    subst hb
    exact hc ha

/-- Membership after running all patterns of a table over one haystack. -/
theorem mem_capsAddPatterns (hay : String) (x : String) :
    ∀ (pats : List (Rx × String)) (caps : List String),
      x ∈ capsAddPatterns hay caps pats ↔
        x ∈ caps ∨ ∃ pr ∈ pats, rx_searchCI pr.1 hay = true ∧ pr.2 = x := by
  intro pats
  induction pats with
  | nil => intro caps; simp [capsAddPatterns]
  | cons pr rest ih =>
      intro caps
      obtain ⟨r, c⟩ := pr
      simp only [capsAddPatterns, ih]
      by_cases hr : rx_searchCI r hay = true
      · simp only [if_pos hr, mem_pySetAdd]
        constructor
        · rintro ((hx | rfl) | hx)
          · exact Or.inl hx
          · exact Or.inr ⟨(r, x), List.mem_cons_self _ _, hr, rfl⟩
          · obtain ⟨pr', hpr', hs, he⟩ := hx
            exact Or.inr ⟨pr', List.mem_cons_of_mem _ hpr', hs, he⟩
        · rintro (hx | ⟨pr', hpr', hs, he⟩)
          · exact Or.inl (Or.inl hx)
          · rcases List.mem_cons.mp hpr' with h1 | h2
            · subst h1
              exact Or.inl (Or.inr he.symm)
            · exact Or.inr ⟨pr', h2, hs, he⟩
      · simp only [if_neg hr]
        constructor
        · rintro (hx | ⟨pr', hpr', hs, he⟩)
          · exact Or.inl hx
          · exact Or.inr ⟨pr', List.mem_cons_of_mem _ hpr', hs, he⟩
        · rintro (hx | ⟨pr', hpr', hs, he⟩)
          · exact Or.inl hx
          · rcases List.mem_cons.mp hpr' with h1 | h2
            · subst h1; exact absurd hs hr
            · exact Or.inr ⟨pr', h2, hs, he⟩

/-- Running the patterns preserves the no-duplicates invariant. -/
theorem nodup_capsAddPatterns (hay : String) :
    ∀ (pats : List (Rx × String)) (caps : List String), caps.Nodup →
      (capsAddPatterns hay caps pats).Nodup := by
  intro pats
  induction pats with
  | nil => intro caps h; simpa [capsAddPatterns] using h
  | cons pr rest ih =>
      intro caps h
      obtain ⟨r, c⟩ := pr
      simp only [capsAddPatterns]
      by_cases hr : rx_searchCI r hay = true
      · simp only [if_pos hr]
        exact ih _ (nodup_pySetAdd c caps h)
      · simp only [if_neg hr]
        exact ih _ h

/-- Membership after processing one file of the scan loop. -/
theorem mem_capsAddFile (x : String) (caps : List String) (f : PyFile) :
    x ∈ capsAddFile caps f ↔ x ∈ caps ∨ fileMatches f x := by
  cases hc : f.content with
  | none =>
      simp only [capsAddFile, hc, fileMatches]
      constructor
      · exact Or.inl
      · rintro (hx | ⟨t, ht, _⟩)
        · exact hx
        · cases ht
  | some text =>
      simp only [capsAddFile, hc, mem_capsAddPatterns, fileMatches]
      constructor
      · rintro (hx | ⟨pr, hpr, hs, he⟩)
        · exact Or.inl hx
        · exact Or.inr ⟨text, rfl, pr, hpr, hs, he⟩
      · rintro (hx | ⟨t, ht, pr, hpr, hs, he⟩)
        · exact Or.inl hx
        · obtain rfl : text = t := Option.some_injective _ ht
          exact Or.inr ⟨pr, hpr, hs, he⟩

/-- Processing one file preserves the no-duplicates invariant. -/
theorem nodup_capsAddFile (caps : List String) (f : PyFile) (h : caps.Nodup) :
    (capsAddFile caps f).Nodup := by
  cases hc : f.content with
  | none => simpa [capsAddFile, hc] using h
  | some text =>
      simp only [capsAddFile, hc]
      exact nodup_capsAddPatterns _ _ _ h

/-- Membership in the accumulated capability set of the whole scan loop. -/
theorem mem_foldl_caps (x : String) :
    ∀ (files : List PyFile) (acc : List String),
      x ∈ files.foldl capsAddFile acc ↔ x ∈ acc ∨ ∃ f ∈ files, fileMatches f x := by
  intro files
  induction files with
  | nil => intro acc; simp
  | cons f rest ih =>
      intro acc
      simp only [List.foldl_cons, ih, mem_capsAddFile]
      constructor
      · rintro ((hx | hm) | ⟨g, hg, hm⟩)
        · exact Or.inl hx
        · exact Or.inr ⟨f, List.mem_cons_self _ _, hm⟩
        · exact Or.inr ⟨g, List.mem_cons_of_mem _ hg, hm⟩
      · rintro (hx | ⟨g, hg, hm⟩)
        · exact Or.inl (Or.inl hx)
        · rcases List.mem_cons.mp hg with h1 | h2
          · subst h1; exact Or.inl (Or.inr hm)
          · exact Or.inr ⟨g, h2, hm⟩

/-- The whole scan loop preserves the no-duplicates invariant. -/
theorem nodup_foldl_caps :
    ∀ (files : List PyFile) (acc : List String), acc.Nodup →
      (files.foldl capsAddFile acc).Nodup := by
  intro files
  induction files with
  | nil => intro acc h; simpa using h
  | cons f rest ih =>
      intro acc h
      simp only [List.foldl_cons]
      exact ih _ (nodup_capsAddFile acc f h)

/-- Characterisation of the detector's output: a capability is reported
exactly when some file of the list was read successfully and some pattern of
the table matches its haystack. -/
theorem mem_detect_capabilities (files : List PyFile) (x : String) :
    x ∈ detect_capabilities files ↔ ∃ f ∈ files, fileMatches f x := by
  unfold detect_capabilities pySorted
  rw [List.mem_insertionSort, mem_foldl_caps]
  simp

/-- The detector's output is sorted in ascending string order. -/
theorem detect_capabilities_sorted (files : List PyFile) :
    List.Sorted (· ≤ ·) (detect_capabilities files) :=
  pySorted_sorted _

/-- The detector's output has no duplicates. -/
theorem detect_capabilities_nodup (files : List PyFile) :
    (detect_capabilities files).Nodup := by
  unfold detect_capabilities
  exact ((pySorted_perm _).nodup_iff).mpr (nodup_foldl_caps files [] List.nodup_nil)

/-- A prefix match survives appending to the haystack. -/
theorem matchesAt_append (n h h' : List Char) (hm : matchesAt n h = true) :
    matchesAt n (h ++ h') = true := by
  induction n generalizing h with
  | nil => simp [matchesAt]
  | cons c cs ih =>
      cases h with
      | nil => simp [matchesAt] at hm
      | cons d ds =>
          simp only [matchesAt, Bool.and_eq_true, beq_iff_eq] at hm
          simp only [List.cons_append, matchesAt, Bool.and_eq_true, beq_iff_eq]
          exact ⟨hm.1, ih ds hm.2⟩

/-- The empty needle occurs in every haystack. -/
theorem containsL_nil (l : List Char) : containsL [] l = true := by
  cases l <;> simp [containsL, matchesAt]

/-- A substring occurrence survives appending to the haystack. -/
theorem containsL_append (n h h' : List Char) (hc : containsL n h = true) :
    containsL n (h ++ h') = true := by
  induction h with
  | nil =>
      cases n with
      | nil => exact containsL_nil h'
      | cons c cs => simp [containsL, matchesAt] at hc
  | cons d ds ih =>
      simp only [containsL, Bool.or_eq_true] at hc
      rcases hc with hm | hrest
      · simp only [List.cons_append, containsL, Bool.or_eq_true]
        exact Or.inl (matchesAt_append n (d :: ds) h' hm)
      · simp only [List.cons_append, containsL, Bool.or_eq_true]
        exact Or.inr (ih hrest)

/-- A literal pattern that already matches inside `A` matches the haystack
`A ++ B`. -/
theorem lit_search_of_contains (s A B : String)
    (h : containsL (lowerL s.data) (lowerL A.data) = true) :
    rx_searchCI (.lit s) (A ++ B) = true := by
  show containsL (lowerL s.data) (lowerL (A ++ B).data) = true
  rw [String.data_append]
  unfold lowerL at h ⊢
  rw [List.map_append]
  exact containsL_append _ _ _ h

/-- Searching an alternation succeeds if the left branch does. -/
theorem alt_search_left (r₁ r₂ : Rx) (hay : String) (h : rx_searchCI r₁ hay = true) :
    rx_searchCI (.alt r₁ r₂) hay = true := by
  show (Rx.search r₁ (lowerL hay.data) || Rx.search r₂ (lowerL hay.data)) = true
  rw [Bool.or_eq_true]
  exact Or.inl h

/-- A stripped string is empty exactly when every character was
whitespace. -/
theorem py_strip_eq_empty_iff (t : String) :
    py_strip t = "" ↔ t.data.all Char.isWhitespace = true := by
  unfold py_strip
  constructor
  · intro h
    have hl : ((t.data.dropWhile Char.isWhitespace).reverse.dropWhile Char.isWhitespace).reverse
        = [] := by
      have := congrArg String.data h
      simpa using this
    rw [List.reverse_eq_nil_iff, List.dropWhile_eq_nil_iff] at hl
    rw [List.all_eq_true]
    intro x hx
    rcases List.mem_append.mp ((List.takeWhile_append_dropWhile Char.isWhitespace t.data) ▸ hx)
      with hx1 | hx2
    · exact List.mem_takeWhile_imp hx1
    · exact hl x (List.mem_reverse.mpr hx2)
  · intro h
    have h1 : t.data.dropWhile Char.isWhitespace = [] := by
      rw [List.dropWhile_eq_nil_iff]
      intro x hx
      exact (List.all_eq_true.mp h) x hx
    simp [h1]

/-- The tag comprehension is a filter of non-whitespace-only entries
followed by stripping each survivor. -/
theorem filterMap_strip (l : List String) :
    (l.filterMap fun t => if py_strip t = "" then none else some (py_strip t)) =
      (l.filter fun t => !t.data.all Char.isWhitespace).map py_strip := by
  induction l with
  | nil => rfl
  | cons a l ih =>
      by_cases h : py_strip a = ""
      · have ha : a.data.all Char.isWhitespace = true := (py_strip_eq_empty_iff a).mp h
        simp [List.filterMap_cons, List.filter_cons, h, ha, ih]
      · have ha : ¬ a.data.all Char.isWhitespace = true := fun hw =>
          h ((py_strip_eq_empty_iff a).mpr hw)
        simp [List.filterMap_cons, List.filter_cons, h, Bool.not_eq_true _ ▸ ha, ih,
          Bool.eq_false_iff.mpr ha]

/-- The serialized manifest starts with an opening brace. -/
theorem json_dumps_head (m : Manifest) : (json_dumps m).data.head? = some '\x7b' := by
  unfold json_dumps
  simp [String.data_append, List.head?_append]

/-- The capability line starts with the letter D, so it is never the
serialized manifest. -/
theorem json_ne_discovered (m : Manifest) (caps : List String) :
    json_dumps m ≠ discoveredLine caps := by
  intro h
  have h1 := json_dumps_head m
  have h2 : (discoveredLine caps).data.head? = some 'D' := by
    unfold discoveredLine
    simp [String.data_append, List.head?_append]
  rw [h, h2] at h1
  exact absurd (Option.some.inj h1) (by decide)

/-- The confirmation line starts with the letter W, so it is never the
serialized manifest. -/
theorem json_ne_wrote (m : Manifest) (p : String) :
    json_dumps m ≠ "Wrote manifest to " ++ p := by
  intro h
  have h1 := json_dumps_head m
  have h2 : ("Wrote manifest to " ++ p).data.head? = some 'W' := by
    simp [String.data_append, List.head?_append]
  rw [h, h2] at h1
  exact absurd (Option.some.inj h1) (by decide)

/-- C1 (amended: the matching string is the file's name, a newline
separator, then the first 4000 characters of the content): a label is in
the detected capability set exactly when, for some successfully read file
of the list, some pattern of the static table matches that string. -/
theorem C1_capability_accumulation (files : List PyFile) (c : String) :
    c ∈ detect_capabilities files ↔
      ∃ f ∈ files, ∃ text, f.content = some text ∧
        ∃ pr ∈ CAPABILITY_MAP,
          rx_searchCI pr.1 (f.name ++ "\n" ++ pyTake4000 text) = true ∧ pr.2 = c := by
  rw [mem_detect_capabilities]
  unfold fileMatches hayOf
  exact Iff.rfl

/-- C1 counterexample: with the haystack the claim words (name directly
concatenated with content), the file `x.md` with content `mg` would match
the `dmg` alternative of the macos pattern across the junction, but the
code separates name and content with a newline and detects nothing. -/
theorem C1_counterexample :
    detect_capabilities [⟨"x.md", some "mg"⟩] = [] ∧
    detect_capabilities_specC1 [⟨"x.md", some "mg"⟩] = ["macos-build"] := by decide

/-- C2: the manifest's capabilities field is the detector's output, which
is always sorted ascending, duplicate-free, and drawn from the labels of
the static pattern table. -/
theorem C2_capabilities_invariant (a : Args) (host : String) (now : Nat) (files : List PyFile) :
    (main_manifest a host now files).capabilities = detect_capabilities files ∧
    List.Sorted (· ≤ ·) (detect_capabilities files) ∧
    (detect_capabilities files).Nodup ∧
    ∀ c ∈ detect_capabilities files, c ∈ CAPABILITY_MAP.map Prod.snd := by
  refine ⟨?_, detect_capabilities_sorted files, detect_capabilities_nodup files, ?_⟩
  · by_cases h : detect_capabilities files = []
    · simp [main_manifest, build_manifest, h]
    · simp [main_manifest, build_manifest, h]
  · intro c hc
    rw [mem_detect_capabilities] at hc
    obtain ⟨f, hf, t, ht, pr, hpr, hs, he⟩ := hc
    exact List.mem_map.mpr ⟨pr, hpr, he⟩

/-- C3: the detector is invariant under permutation of the file list. -/
theorem C3_order_independence (l₁ l₂ : List PyFile) (h : l₁.Perm l₂) :
    detect_capabilities l₁ = detect_capabilities l₂ := by
  have hmid : (l₁.foldl capsAddFile []).Perm (l₂.foldl capsAddFile []) := by
    rw [List.perm_ext_iff_of_nodup (nodup_foldl_caps l₁ [] List.nodup_nil)
      (nodup_foldl_caps l₂ [] List.nodup_nil)]
    intro x
    rw [mem_foldl_caps, mem_foldl_caps]
    constructor
    · rintro (hx | ⟨f, hf, hm⟩)
      · exact absurd hx (List.not_mem_nil _)
      · exact Or.inr ⟨f, h.mem_iff.mp hf, hm⟩
    · rintro (hx | ⟨f, hf, hm⟩)
      · exact absurd hx (List.not_mem_nil _)
      · exact Or.inr ⟨f, h.mem_iff.mpr hf, hm⟩
  have hperm : (detect_capabilities l₁).Perm (detect_capabilities l₂) :=
    ((pySorted_perm (l₁.foldl capsAddFile [])).trans hmid).trans
      (pySorted_perm (l₂.foldl capsAddFile [])).symm
  exact List.eq_of_perm_of_sorted hperm
    (detect_capabilities_sorted l₁) (detect_capabilities_sorted l₂)

/-- C3 witness: swapping two concrete files leaves the result unchanged. -/
theorem C3_witness :
    detect_capabilities [⟨"a.md", some "gpu"⟩, ⟨"b.md", some "qcity"⟩] =
      detect_capabilities [⟨"b.md", some "qcity"⟩, ⟨"a.md", some "gpu"⟩] :=
  C3_order_independence _ _ (List.Perm.swap _ _ _)

/-- C4: a file whose read failed is skipped: the scan of the remaining
files proceeds exactly as if the failed file were absent. -/
theorem C4_failed_read_skipped (l₁ l₂ : List PyFile) (f : PyFile) (h : f.content = none) :
    detect_capabilities (l₁ ++ f :: l₂) = detect_capabilities (l₁ ++ l₂) := by
  unfold detect_capabilities
  rw [List.foldl_append, List.foldl_append, List.foldl_cons]
  have hskip : capsAddFile (l₁.foldl capsAddFile []) f = l₁.foldl capsAddFile [] := by
    simp [capsAddFile, h]
  rw [hskip]

/-- C4 witness: a concrete unreadable file contributes nothing. -/
theorem C4_witness :
    detect_capabilities [⟨"a.md", some "gpu"⟩, ⟨"bad.md", none⟩] =
      detect_capabilities [⟨"a.md", some "gpu"⟩] :=
  C4_failed_read_skipped [⟨"a.md", some "gpu"⟩] [] ⟨"bad.md", none⟩ rfl

/-- C5: any file list containing a readable `android-build.md` yields both
`android-build` and `build`, whatever the other files and the order. -/
theorem C5_android_build_file (files : List PyFile) (f : PyFile) (hf : f ∈ files)
    (hn : f.name = "android-build.md") (t : String) (hc : f.content = some t) :
    "android-build" ∈ detect_capabilities files ∧ "build" ∈ detect_capabilities files := by
  constructor
  · rw [mem_detect_capabilities]
    refine ⟨f, hf, t, hc,
      (.alt (.lit "android") (.alt (.lit "apk") (.lit "play")), "android-build"),
      by decide, ?_, rfl⟩
    rw [hn]
    show rx_searchCI _ (("android-build.md" ++ "\n") ++ pyTake4000 t) = true
    apply alt_search_left
    apply lit_search_of_contains
    decide
  · rw [mem_detect_capabilities]
    refine ⟨f, hf, t, hc, (.lit "build", "build"), by decide, ?_, rfl⟩
    rw [hn]
    show rx_searchCI _ (("android-build.md" ++ "\n") ++ pyTake4000 t) = true
    apply lit_search_of_contains
    decide

/-- C5 witness: the singleton list with an empty `android-build.md`. -/
theorem C5_witness :
    "android-build" ∈ detect_capabilities [⟨"android-build.md", some ""⟩] ∧
    "build" ∈ detect_capabilities [⟨"android-build.md", some ""⟩] :=
  C5_android_build_file _ _ (List.mem_cons_self _ _) rfl "" rfl

/-- C10: the detector is monotone: every capability found on a file list
is still found on any superlist. -/
theorem C10_monotone (l₁ l₂ : List PyFile) (h : ∀ f ∈ l₁, f ∈ l₂) :
    ∀ c ∈ detect_capabilities l₁, c ∈ detect_capabilities l₂ := by
  intro c hc
  rw [mem_detect_capabilities] at hc ⊢
  obtain ⟨f, hf, hm⟩ := hc
  exact ⟨f, h f hf, hm⟩

/-- C10 witness: a capability of a one-file list survives adding a file. -/
theorem C10_witness :
    "gpu" ∈ detect_capabilities [⟨"a.md", some "gpu"⟩, ⟨"b.md", some "qcity"⟩] :=
  C10_monotone [⟨"a.md", some "gpu"⟩] [⟨"a.md", some "gpu"⟩, ⟨"b.md", some "qcity"⟩]
    (by decide) "gpu" (by decide)

/-- C6: both accessor stubs return the stored text unchanged when the
documentation file exists, and the empty string when it is absent. -/
theorem C6_get_notes_exact (fs : String → Option String) :
    (∀ t, fs doctexts_path = some t →
        qmoi_avatars.get_notes fs = t ∧ qmoi_doit.get_notes fs = t) ∧
    (fs doctexts_path = none →
        qmoi_avatars.get_notes fs = "" ∧ qmoi_doit.get_notes fs = "") := by
  constructor
  · intro t ht
    constructor
    · unfold qmoi_avatars.get_notes
      rw [ht]
    · unfold qmoi_doit.get_notes
      rw [ht]
  · intro ht
    constructor
    · unfold qmoi_avatars.get_notes
      rw [ht]
    · unfold qmoi_doit.get_notes
      rw [ht]

/-- C6 witness: a concrete present file and a concrete absent file. -/
theorem C6_witness :
    qmoi_avatars.get_notes (fun p => if p = doctexts_path then some "notes" else none) = "notes" ∧
    qmoi_doit.get_notes (fun _ => none) = "" :=
  ⟨((C6_get_notes_exact _).1 "notes" (if_pos rfl)).1, ((C6_get_notes_exact _).2 rfl).2⟩

/-- C7 (amended: each kept entry is additionally stripped of surrounding
whitespace): the manifest's tags are the comma-separated entries of the
tag string with whitespace-only and empty entries discarded and the
survivors stripped, in order; `a,,b` yields `[a, b]`. -/
theorem C7_tags_parsing (a : Args) (host : String) (now : Nat) (files : List PyFile) :
    (main_manifest a host now files).tags =
      ((py_split_comma a.tags).filter fun t => !t.data.all Char.isWhitespace).map py_strip ∧
    parse_tags "a,,b" = ["a", "b"] := by
  constructor
  · have h1 : (main_manifest a host now files).tags = parse_tags a.tags := rfl
    rw [h1]
    exact filterMap_strip _
  · decide

/-- C7 counterexample: on the tag string `a ,b` the code strips the kept
entries, so the manifest holds `a`, not the verbatim entry `a ` the claim
would keep. -/
theorem C7_counterexample :
    (main_manifest ⟨none, "a ,b", false, "."⟩ "host" 0 []).tags = ["a", "b"] ∧
    parse_tags_specC7 "a ,b" = ["a ", "b"] := by decide

/-- C8: one invocation performs exactly one manifest output action,
selected by the apply flag: without it the serialized manifest goes to
standard output and the file system is untouched; with it the manifest
text is at the output path afterwards, no other file changes, no
directory other than the output directory changes, and the manifest is
not printed. -/
theorem C8_single_output_action (a : Args) (host : String) (now : Nat) (files : List PyFile)
    (fs : FS) :
    (a.apply = false →
       json_dumps (main_manifest a host now files) ∈ stdoutOf (mainEffects a host now files) ∧
       runEffects fs (mainEffects a host now files) = fs) ∧
    (a.apply = true →
       json_dumps (main_manifest a host now files) ∉ stdoutOf (mainEffects a host now files) ∧
       (runEffects fs (mainEffects a host now files)).files (manifest_path a.root) =
         some (json_dumps (main_manifest a host now files)) ∧
       (∀ q, q ≠ manifest_path a.root →
          (runEffects fs (mainEffects a host now files)).files q = fs.files q) ∧
       (∀ d, d ≠ qmoi_dir a.root →
          (runEffects fs (mainEffects a host now files)).dirs d = fs.dirs d)) := by
  constructor
  · intro ha
    have heff : mainEffects a host now files =
        [Eff.printOut (discoveredLine (detect_capabilities files)),
         Eff.printOut (json_dumps (main_manifest a host now files))] := by
      unfold mainEffects
      rw [ha]
      rfl
    constructor
    · have hstd : stdoutOf (mainEffects a host now files) =
          [discoveredLine (detect_capabilities files),
           json_dumps (main_manifest a host now files)] := by
        rw [heff]
        rfl
      rw [hstd]
      exact List.mem_cons_of_mem _ (List.mem_cons_self _ _)
    · rw [heff]
      rfl
  · intro ha
    have heff : mainEffects a host now files =
        [Eff.printOut (discoveredLine (detect_capabilities files)),
         Eff.mkdirAll (qmoi_dir a.root),
         Eff.writeFileAt (manifest_path a.root) (json_dumps (main_manifest a host now files)),
         Eff.printOut ("Wrote manifest to " ++ manifest_path a.root)] := by
      unfold mainEffects
      rw [ha]
      rfl
    have hfiles : (runEffects fs (mainEffects a host now files)).files =
        fun q => if q = manifest_path a.root
          then some (json_dumps (main_manifest a host now files)) else fs.files q := by
      rw [heff]
      rfl
    have hdirs : (runEffects fs (mainEffects a host now files)).dirs =
        fun q => if q = qmoi_dir a.root then true else fs.dirs q := by
      rw [heff]
      rfl
    refine ⟨?_, ?_, ?_, ?_⟩
    · have hstd : stdoutOf (mainEffects a host now files) =
          [discoveredLine (detect_capabilities files),
           "Wrote manifest to " ++ manifest_path a.root] := by
        rw [heff]
        rfl
      rw [hstd]
      intro hmem
      rcases List.mem_cons.mp hmem with h1 | h1
      · exact json_ne_discovered _ _ h1
      · rw [List.mem_singleton] at h1
        exact json_ne_wrote _ _ h1
    · rw [hfiles]
      simp
    · intro q hq
      rw [hfiles]
      simp only []
      rw [if_neg hq]
    · intro d hd
      rw [hdirs]
      simp only []
      rw [if_neg hd]

/-- C8 witness: a concrete apply-mode run writes the serialized manifest
at the output path. -/
theorem C8_witness :
    (runEffects ⟨fun _ => none, fun _ => false⟩
        (mainEffects ⟨none, "", true, "."⟩ "host" 0 [])).files (manifest_path ".") =
      some (json_dumps (main_manifest ⟨none, "", true, "."⟩ "host" 0 [])) :=
  ((C8_single_output_action ⟨none, "", true, "."⟩ "host" 0 []
      ⟨fun _ => none, fun _ => false⟩).2 rfl).2.1

/-- C9: an empty `--runner-id` is falsy in Python's `or`, so the manifest
falls back to the host name, exactly as when the flag is absent. -/
theorem C9_empty_runner_id (tags root : String) (ap : Bool) (host : String) (now : Nat)
    (files : List PyFile) :
    (main_manifest ⟨some "", tags, ap, root⟩ host now files).runner_id = host ∧
    (main_manifest ⟨some "", tags, ap, root⟩ host now files).runner_id =
      (main_manifest ⟨none, tags, ap, root⟩ host now files).runner_id := by
  constructor <;> rfl

/-- C2 witness: a concretely detected capability is a label of the static
table. -/
theorem C2_witness : "gpu" ∈ CAPABILITY_MAP.map Prod.snd :=
  (C2_capabilities_invariant ⟨none, "", false, "."⟩ "host" 0 [⟨"a.md", some "gpu"⟩]).2.2.2
    "gpu" (by decide)
